import Mathlib

/-!
Verification of the context-aware command-completion engine of a modular
REPL-style command shell.  The development shallowly embeds the two source
revisions of the fuzzy matcher (`ptk_repl/core/completion/fuzzy_matcher.py`
and `fuzzy_matcher_implementation.py`) and of the auto completer
(`ptk_repl/core/completion/auto_completer.py` and
`auto_completer_enhanced.py`), and proves the stated properties of the
completion pipeline against those embeddings.

Python strings are embedded as `List Char`, Python ints as `Nat`/`Int`,
Python floats that only ever hold small dyadic/decimal values as `ℚ`,
Python `dict`s as insertion-ordered association lists, and fallible
operations (`list[i]`, `dict[k]`) as `Option`-returning lookups.
-/

/-- Python strings are modelled as lists of characters. -/
abbrev Str := List Char

/-- Characters that Python's `str.split()` treats as whitespace
(the ASCII ones; the embedding does not model exotic Unicode spaces). -/
def isWs (c : Char) : Bool :=
  c = ' ' || c = '\t' || c = '\n' || c = '\x0d' || c = '\x0b' || c = '\x0c'

/-- Worker for `pySplit`: `acc` is the (reversed) token currently being read. -/
def splitWsAux : Str → Str → List Str
  | [], acc => if acc = [] then [] else [acc.reverse]
  | c :: cs, acc =>
    if isWs c then
      if acc = [] then splitWsAux cs [] else acc.reverse :: splitWsAux cs []
    else
      splitWsAux cs (c :: acc)

/-- Python `str.split()` with no arguments: split on whitespace runs,
dropping empty tokens. -/
def pySplit (s : Str) : List Str := splitWsAux s []

/-- Python `str.split(maxsplit=1)`: first whitespace-delimited token, then the
remainder (with the whitespace run after the first token removed, trailing
text kept verbatim). -/
def pySplitMax1 (s : Str) : List Str :=
  let s1 := s.dropWhile (fun c => isWs c)
  if s1 = [] then []
  else
    let tok := s1.takeWhile (fun c => ¬ isWs c)
    let rest := (s1.dropWhile (fun c => ¬ isWs c)).dropWhile (fun c => isWs c)
    if rest = [] then [tok] else [tok, rest]

/-- Python `candidate.startswith(query)` (the first argument is the string,
the second the candidate prefix). -/
def startsWithStr : Str → Str → Bool
  | _, [] => true
  | [], _ :: _ => false
  | a :: as, b :: bs => a = b && startsWithStr as bs

/-- Python `str.lower()`, character by character. -/
def pyLower (s : Str) : Str := s.map Char.toLower

/-- Python `text.endswith(" ")`. -/
def endsWithSpace (s : Str) : Bool := s.getLast? = some ' '

/-- Python `" ".join(l)`. -/
def joinSpace (l : List Str) : Str := List.intercalate [' '] l

/-- Lexicographic comparison of strings by character code, as Python's
`<=` on `str`. -/
def lexLe : Str → Str → Bool
  | [], _ => true
  | _ :: _, [] => false
  | a :: as, b :: bs => if a = b then lexLe as bs else decide (a < b)

/-- Stable insertion of `x` into a list sorted by `le`: `x` is placed before
the first element it compares `le` to, so earlier-listed elements win ties. -/
def insertS (le : α → α → Bool) (x : α) : List α → List α
  | [] => [x]
  | y :: ys => if le x y then x :: y :: ys else y :: insertS le x ys

/-- Stable insertion sort; for a total preorder `le` this computes the same
list as Python's (stable) `sorted`. -/
def pySortBy (le : α → α → Bool) (l : List α) : List α :=
  l.foldr (insertS le) []

/-- Python `sorted` on a list of strings. -/
def pySort (l : List Str) : List Str := pySortBy lexLe l

/-- Python `sorted(set(l))` on strings: deduplicate, then sort. -/
def pySortedSet (l : List Str) : List Str := pySort l.dedup

/-! ### Levenshtein distance

Both fuzzy-matcher revisions compute the classic one-row dynamic-programming
Levenshtein distance with the same loop structure; they differ only in the
character comparison (`c1 != c2` in `fuzzy_matcher_implementation.py`, whose
call site lowercases first, versus `c1.lower() != c2.lower()` in
`ptk_repl/core/completion/fuzzy_matcher.py`).  The loops are shared here,
parametrised by the character equality test. -/

/-- Inner loop of `_levenshtein_distance`: build the tail of the current row
from the previous row, the current character of `s1` and the entry just
computed to its left (`current_row[j]` in the Python code). -/
def levNextRowBy (eqc : Char → Char → Bool) (c1 : Char) : Str → List ℕ → ℕ → List ℕ
  | c2 :: cs, p0 :: p1 :: ps, left =>
    let v := min (min (p1 + 1) (left + 1)) (p0 + (if eqc c1 c2 then 0 else 1))
    v :: levNextRowBy eqc c1 cs (p1 :: ps) v
  | _, _, _ => []

/-- Outer loop of `_levenshtein_distance`: fold the DP rows over `s1`; each
row starts with `i + 1`, which is one more than the head of the previous
row. -/
def levRowsBy (eqc : Char → Char → Bool) : Str → Str → List ℕ → List ℕ
  | [], _, prev => prev
  | c1 :: s1, s2, prev =>
    let h := prev.headD 0 + 1
    levRowsBy eqc s1 s2 (h :: levNextRowBy eqc c1 s2 prev h)

/-- `_levenshtein_distance` after the argument swap (so `s2` is the shorter
string): `previous_row = range(len(s2)+1)`, fold rows, return the last
entry of the final row. -/
def levCoreBy (eqc : Char → Char → Bool) (s1 s2 : Str) : ℕ :=
  if s2 = [] then s1.length
  else (levRowsBy eqc s1 s2 (List.range (s2.length + 1))).getLastD 0

/-- `_levenshtein_distance`: swap so the first argument is the longer
string, then run the row DP. -/
def levDistBy (eqc : Char → Char → Bool) (s1 s2 : Str) : ℕ :=
  if s1.length < s2.length then levCoreBy eqc s2 s1 else levCoreBy eqc s1 s2

/-! ### The standalone fuzzy matcher revision, `fuzzy_matcher_implementation.py`

This is the revision whose scoring convention §4.3 of the specification
adopts (see the spec's design note on the scoring-scale inconsistency).
The `FuzzyMatcher` class there carries four configuration fields and
returns `MatchResult(candidate, score, match_type)` records; scores are
Python floats that only ever hold exact small rationals, embedded as `ℚ`. -/

namespace FMI

/-- The `match_type` strings `"prefix"` / `"subsequence"` / `"levenshtein"` /
`"none"` of `fuzzy_matcher_implementation.MatchResult`. -/
inductive MatchType where
  | prefixTier
  | subsequenceTier
  | levenshteinTier
  | noneTier
deriving DecidableEq

/-- `MatchResult` of `fuzzy_matcher_implementation.py`. -/
structure MatchResult where
  candidate : Str
  score : ℚ
  matchType : MatchType
deriving DecidableEq

/-- The four constructor arguments of `FuzzyMatcher.__init__`. -/
structure Config where
  enablePrefix : Bool
  enableSubsequence : Bool
  enableLevenshtein : Bool
  maxLevenshteinDistance : ℕ

/-- The default `FuzzyMatcher()` configuration. -/
def defaultConfig : Config := ⟨true, true, true, 3⟩

/-- Python `_is_subsequence`'s helper: consume the iterator up to and past
the first occurrence of `ch`, returning the remainder (`none` if absent). -/
def dropUntil : Str → Char → Option Str
  | [], _ => none
  | c :: cs, ch => if c = ch then some cs else dropUntil cs ch

/-- `FuzzyMatcher._is_subsequence`: `all(char in it for char in query)` over a
single shared iterator of `candidate`. -/
def isSubsequence : Str → Str → Bool
  | [], _ => true
  | ch :: qs, c =>
    match dropUntil c ch with
    | some rest => isSubsequence qs rest
    | none => false

/-- One inner `for i, c in enumerate(it)` pass of
`_count_consecutive_matches`: the index `i` is relative to the *remaining*
iterator (Python's `enumerate` restarts at 0 on the partially consumed
iterator), and the iterator is left positioned after the match. -/
def innerScan : Str → Char → Option (ℕ × Str)
  | [], _ => none
  | c :: cs, ch =>
    if c = ch then some (0, cs)
    else (innerScan cs ch).map (fun p => (p.1 + 1, p.2))

/-- The outer loop of `_count_consecutive_matches`, threading the shared
iterator remainder, `prev_pos` (an `Int`, initially `-1`) and `count`. -/
def ccmLoop : Str → Str → Int → ℕ → ℕ
  | [], _, _, count => count
  | ch :: qs, it, prev, count =>
    match innerScan it ch with
    | none => ccmLoop qs [] prev count
    | some (i, rest) =>
      let count1 := if prev = -1 ∨ (i : Int) = prev + 1 then count + 1 else 1
      ccmLoop qs rest (i : Int) count1

/-- `FuzzyMatcher._count_consecutive_matches` of
`fuzzy_matcher_implementation.py`. -/
def countConsecutiveMatches (query candidate : Str) : ℕ :=
  max 0 (ccmLoop query candidate (-1) 0)

/-- `FuzzyMatcher._subsequence_match` of `fuzzy_matcher_implementation.py`:
base 50, consecutive bonus capped at 20, first-character bonus 10, length
ratio bonus `len(query)/len(candidate) * 10`, result capped at 90.  Python
accumulates `50 + min(consec*10, 20) + (10 if candidate[0]==query[0] else 0)
+ len(q)/len(c)*10` in floats; all these values are exact small rationals,
assembled here as the single rational
`(intPart*len(c) + 10*len(q)) / len(c)` so the kernel can evaluate them
(`Rat.add`/`Rat.mul`/`Rat.div` are irreducible in this toolchain).
Call sites guarantee `query` is non-empty; on an empty query with an empty
candidate this embedding returns a value where Python would raise. -/
def subsequenceMatch (query candidate : Str) : ℚ :=
  if isSubsequence query candidate = false then 0
  else
    let consec := countConsecutiveMatches query candidate
    let intPart : ℤ :=
      50 + min ((consec : ℤ) * 10) 20 + (if candidate.head? = query.head? then 10 else 0)
    let score : ℚ :=
      Rat.divInt (intPart * candidate.length + 10 * query.length) candidate.length
    min score 90

/-- `FuzzyMatcher._levenshtein_distance` of
`fuzzy_matcher_implementation.py` (raw character comparison; its call site
lowercases both strings first). -/
def levenshteinDistance (s1 s2 : Str) : ℕ :=
  levDistBy (fun a b => a = b) s1 s2

/-- `FuzzyMatcher._levenshtein_to_score`: the fixed distance-to-score
lookup.  Python's tail `max(0.0, 40.0 - (distance-3)*10)` is integer-valued;
it is computed in `ℤ` and injected into `ℚ` for kernel computability. -/
def levenshteinToScore (distance : ℕ) : ℚ :=
  if distance = 0 then 100
  else if distance = 1 then 80
  else if distance = 2 then 60
  else if distance = 3 then 40
  else Rat.ofInt (max 0 (40 - ((distance : ℤ) - 3) * 10))

/-- `FuzzyMatcher._match_single` of `fuzzy_matcher_implementation.py`. -/
def matchSingle (cfg : Config) (query candidate : Str) : MatchResult :=
  let queryLower := pyLower query
  let candidateLower := pyLower candidate
  if cfg.enablePrefix && startsWithStr candidateLower queryLower then
    ⟨candidate, 100, .prefixTier⟩
  else
    let subseqScore :=
      if cfg.enableSubsequence then subsequenceMatch queryLower candidateLower else 0
    if cfg.enableSubsequence && subseqScore > 0 then
      ⟨candidate, subseqScore, .subsequenceTier⟩
    else
      let d := levenshteinDistance queryLower candidateLower
      if cfg.enableLevenshtein && d ≤ cfg.maxLevenshteinDistance then
        ⟨candidate, levenshteinToScore d, .levenshteinTier⟩
      else
        ⟨candidate, 0, .noneTier⟩

/-- `FuzzyMatcher.match` of `fuzzy_matcher_implementation.py`: empty query
short-circuits to score-0 results; otherwise score every candidate, sort
descending by score (stably, as Python's `sort(key=..., reverse=True)`),
and drop score-0 entries. -/
def fmMatch (cfg : Config) (query : Str) (candidates : List Str) : List MatchResult :=
  if query = [] then
    candidates.map (fun c => ⟨c, 0, .noneTier⟩)
  else
    let results := candidates.map (fun c => matchSingle cfg query c)
    let sorted := pySortBy (fun a b => decide (b.score ≤ a.score)) results
    sorted.filter (fun r => decide (r.score > 0))

end FMI

/-! ### The core fuzzy matcher revision,
`src/ptk_repl/core/completion/fuzzy_matcher.py`

This is the revision imported by the core `AutoCompleter`.  Its scores are
Python `int`s (`Nat` here), its prefix tier is case-sensitive, and its
results carry no match-type tag.  `FuzzyMatcher.match` memoises results in
a bounded FIFO cache; since the cache only ever stores values previously
computed by the same pure computation, the embedding is the cache-free
function. -/

namespace CoreFM

/-- `MatchResult` of the core `fuzzy_matcher.py` (candidate and integer
score; no match-type field). -/
structure MatchResult where
  candidate : Str
  score : ℕ
deriving DecidableEq

/-- The scanning loop of the core `_subsequence_match`: walk the lowered
candidate, carrying the query index `i`, `last_match_pos` (an `Int`,
initially `-1`) and `consecutive_bonus`.  The guard
`i < len(query_lower) and char == query_lower[i]` is rendered as
`q.get? i = some ch`, which holds exactly when `i` is in range and the
characters agree. -/
def subseqLoop (q : Str) : Str → ℕ → Int → ℕ → ℕ × Int × ℕ
  | [], i, last, bonus => (i, last, bonus)
  | ch :: cs, i, last, bonus =>
    if q.get? i = some ch then
      subseqLoop q cs (i + 1) (i : Int)
        (if 0 ≤ last ∧ (i : Int) = last + 1 then bonus + 5 else bonus)
    else
      subseqLoop q cs i last bonus

/-- `FuzzyMatcher._subsequence_match` of the core `fuzzy_matcher.py`:
guard, lowercase both strings, run the scan, and score
`50 + consecutive_bonus + min(20, len(query) * 2)` when every query
character was consumed. -/
def subsequenceMatch (query candidate : Str) : ℕ :=
  if query = [] ∨ candidate.length < query.length then 0
  else
    let ql := pyLower query
    let cl := pyLower candidate
    let r := subseqLoop ql cl 0 (-1) 0
    if r.1 ≠ ql.length then 0
    else 50 + r.2.2 + min 20 (query.length * 2)

/-- `FuzzyMatcher._levenshtein_distance` of the core `fuzzy_matcher.py`
(case-insensitive character comparison inside the DP). -/
def levenshteinDistance (s1 s2 : Str) : ℕ :=
  levDistBy (fun a b => a.toLower = b.toLower) s1 s2

/-- `FuzzyMatcher._levenshtein_match` of the core `fuzzy_matcher.py`.
Python's float guard `abs(len(q) - len(c)) > max(len(q), len(c)) * 0.5`
is exact on machine ints and is rendered as `2 * |Δlen| > maxLen`; the
threshold `max(3, int(max_len * 0.3))` is rendered with exact rational
truncation `3 * maxLen / 10` (Python evaluates `max_len * 0.3` in binary
floating point, which can differ by one unit at some boundaries; no stated
property depends on the threshold's exact value).  The final score
`max(30, 80 - distance * 10)` agrees with Nat truncated subtraction since
both floor at 30. -/
def levenshteinMatch (query candidate : Str) : ℕ :=
  if query = [] then 0
  else
    let maxLen := max query.length candidate.length
    let minLen := min query.length candidate.length
    if 2 * (maxLen - minLen) > maxLen then 0
    else
      let distance := levenshteinDistance query candidate
      let maxDistance := max 3 (3 * maxLen / 10)
      if distance > maxDistance then 0
      else max 30 (80 - distance * 10)

/-- `FuzzyMatcher.match` of the core `fuzzy_matcher.py` (cache elided):
empty query yields every candidate with score 100; otherwise the first
applicable of case-sensitive prefix (100) / subsequence / Levenshtein
produces a result, non-matches are dropped, and results are sorted
descending by score (`MatchResult.__lt__` compares `score >`, and Python's
sort is stable). -/
def coreMatch (query : Str) (candidates : List Str) : List MatchResult :=
  if query = [] then candidates.map (fun c => ⟨c, 100⟩)
  else
    let results := candidates.filterMap (fun c =>
      if startsWithStr c query then some ⟨c, 100⟩
      else
        let subseqScore := subsequenceMatch query c
        if subseqScore > 0 then some ⟨c, subseqScore⟩
        else
          let levScore := levenshteinMatch query c
          if levScore > 0 then some ⟨c, levScore⟩ else none)
    pySortBy (fun a b => decide (b.score ≤ a.score)) results

end CoreFM

/-! ### The auto completer

`ptk_repl/core/completion/auto_completer.py` (the core revision, which uses
`CoreFM`) and `auto_completer_enhanced.py` (the enhanced revision) are
embedded over a common model of the `IRegistry` collaborator.  Registry
methods are assumed total, as the specification's error-handling section
requires; Python dicts become insertion-ordered association lists; the
fallible operations (`list[i]`, `dict[k]`, `lines[0]`) return `Option`. -/

namespace AC

/-- A registered `CommandModule` as the completer sees it: `name`,
`description` and the optional `aliases` property (a single short-alias
string; `hasattr`+truthiness is modelled by `Option` plus an emptiness
check at use sites). -/
structure Module where
  name : Str
  description : Str
  aliases : Option Str
deriving DecidableEq

/-- One entry of a Pydantic model's `model_fields`: field name and optional
description. -/
structure TypedField where
  name : Str
  description : Option Str
deriving DecidableEq

/-- The `_original_func` attribute of a `typed_command` wrapper: the wrapped
function's docstring and, when present, `_typed_model.model_fields`. -/
structure OrigFunc where
  doc : Option Str
  typedModel : Option (List TypedField)
deriving DecidableEq

/-- A command handler: its docstring and the optional `_original_func`
attribute. -/
structure Handler where
  doc : Option Str
  originalFunc : Option OrigFunc
deriving DecidableEq

/-- The registry's private `_lazy_tracker`, when it exists and is truthy:
its `lazy_modules` collection and the keys of `_alias_to_module`. -/
structure LazyTracker where
  lazyModules : List Str
  aliasToModule : List (Str × Str)
deriving DecidableEq

/-- The `IRegistry` collaborator: every method total, per the spec's
boundary contract.  `allCommands` models `get_all_commands()`
(`full_cmd ↦ (module, command, handler)`, in dict insertion order) and
`allAliases` models `get_all_aliases()`. -/
structure Registry where
  listModuleCommands : Str → List Str
  modules : List Module
  getModule : Str → Option Module
  allCommands : List (Str × (Str × Str × Handler))
  allAliases : List (Str × Str)
  getCommandInfo : Str → Option (Str × Str × Handler)
  lazyTracker : Option LazyTracker

/-- A Python `dict[str, list[str]]` in insertion order. -/
abbrev Dict := List (Str × List Str)

/-- Python `d[k]` / `k in d`: the first binding of `k`. -/
def lookupD : List (Str × α) → Str → Option α
  | [], _ => none
  | (k0, v0) :: rest, k => if k0 = k then some v0 else lookupD rest k

/-- Python `d[k] = v`: overwrite in place if the key exists (keeping its
position), otherwise append. -/
def insertD : List (Str × α) → Str → α → List (Str × α)
  | [], k, v => [(k, v)]
  | (k0, v0) :: rest, k, v =>
    if k0 = k then (k0, v) :: rest else (k0, v0) :: insertD rest k v

/-- Python `d.update(upd)`: insert every binding of `upd` in order. -/
def updateD (d upd : Dict) : Dict :=
  upd.foldl (fun acc e => insertD acc e.1 e.2) d

/-- Convenience for stating membership: the value stored under `k` in an
optional dict, defaulting to the empty list. -/
def dictGet (o : Option Dict) (k : Str) : List Str :=
  (o.bind (fun d => lookupD d k)).getD []

/-- `AutoCompleter._get_short_alias`: read the `aliases` attribute of the
live module instance, treating an empty string as absent. -/
def getShortAlias (reg : Registry) (moduleName : Str) : Option Str :=
  match reg.getModule moduleName with
  | some m =>
    match m.aliases with
    | some a => if a ≠ [] then some a else none
    | none => none
  | none => none

/-- `AutoCompleter._resolve_module_alias`: first registered module whose
short alias equals the given name. -/
def resolveModuleAlias (reg : Registry) (al : Str) : Option Str :=
  (reg.modules.find? (fun m => getShortAlias reg m.name = some al)).map (fun m => m.name)

/-- `AutoCompleter._resolve_alias`: command-alias lookup with identity
fallback. -/
def resolveAlias (reg : Registry) (command : Str) : Str :=
  match lookupD reg.allAliases command with
  | some full => full
  | none => command

/-- The parameter tokens generated for one Pydantic field list:
`--long-flag` (underscores replaced by dashes) and, for non-empty names,
`-x` from the first character. -/
def paramsOfFields (fields : List TypedField) : List Str :=
  fields.flatMap (fun fl =>
    ('-' :: '-' :: fl.name.map (fun c => if c = '_' then '-' else c)) ::
      (if fl.name ≠ [] then [['-', fl.name.headD ' ']] else []))

/-- One iteration of `_build_parameter_completions`: for a command whose
handler carries `_original_func._typed_model` and yields a non-empty
parameter list, store the tokens under the command's full path and under
every alias of that path. -/
def paramCommandStep (reg : Registry) (pd : Dict) (entry : Str × (Str × Str × Handler)) :
    Dict :=
  match entry.2.2.2.originalFunc with
  | none => pd
  | some f =>
    match f.typedModel with
    | none => pd
    | some fields =>
      if paramsOfFields fields ≠ [] then
        reg.allAliases.foldl (fun pd2 ap =>
          if ap.2 = entry.1 then insertD pd2 ap.1 (paramsOfFields fields) else pd2)
          (insertD pd entry.1 (paramsOfFields fields))
      else pd

/-- `AutoCompleter._build_parameter_completions`: fold `paramCommandStep`
over `get_all_commands()`. -/
def buildParameterCompletions (reg : Registry) : Dict :=
  reg.allCommands.foldl (paramCommandStep reg) []

/-- The ensure-key write of the alias-merge step: `if alias_module not in
completion_dict: completion_dict[alias_module] = []`. -/
def ensureKey (d : Dict) (k : Str) : Dict :=
  if (lookupD d k).isNone then insertD d k [] else d

/-- The body of the alias-merge step for a two-word alias: ensure the module
key exists, read it back (`completion_dict[alias_module]`, the one fallible
dict access of the rebuild), and append the command segment if absent. -/
def aliasEnsureAppend (d : Dict) (aliasModule aliasCmd : Str) : Option Dict :=
  match lookupD (ensureKey d aliasModule) aliasModule with
  | some v =>
    some (if aliasCmd ∈ v then ensureKey d aliasModule
          else insertD (ensureKey d aliasModule) aliasModule (v ++ [aliasCmd]))
  | none => none

/-- Step 7 of the core `build_completion_dict` (step 4 of the enhanced one),
for a single alias binding: two-word aliases `"<module> <command>"` are
merged into the module's entry, everything else is skipped. -/
def aliasMergeStep (d : Dict) (ap : Str × Str) : Option Dict :=
  if ap.1.contains ' ' then
    match pySplitMax1 ap.1 with
    | [aliasModule, aliasCmd] => aliasEnsureAppend d aliasModule aliasCmd
    | _ => some d
  else some d

/-- The `all_modules` set of the core `build_completion_dict`, collected in
iteration order (loaded non-core modules with their aliases, then the lazy
tracker's modules with their aliases, then the tracker's alias keys); only
its `sorted(...)` form is ever consumed, so duplicates are harmless. -/
def allModulesCore (reg : Registry) : List Str :=
  (reg.modules.flatMap (fun m =>
    if m.name ≠ "core".toList then
      m.name :: (match getShortAlias reg m.name with | some s => [s] | none => [])
    else [])) ++
  (match reg.lazyTracker with
   | some t =>
     (t.lazyModules.flatMap (fun n =>
       n :: (match getShortAlias reg n with | some s => [s] | none => []))) ++
     t.aliasToModule.map (fun e => e.1)
   | none => [])

/-- `AutoCompleter.build_completion_dict` of the core revision
(`ptk_repl/core/completion/auto_completer.py`), with the completer's
`_lazy_module_commands` passed as `lazyMap`.  Note that the `""` entry of
step 1 is overwritten wholesale by the `sorted(all_modules)` assignment of
step 2 (line 146 of the source). -/
def buildCompletionDict (reg : Registry) (lazyMap : Dict) : Option Dict :=
  let d0 : Dict := insertD [] [] (pySort (reg.listModuleCommands "core".toList))
  let d1 : Dict := insertD d0 [] (pySortedSet (allModulesCore reg))
  let d2 := reg.modules.foldl (fun d m =>
    if m.name = "core".toList then d
    else
      let commands := reg.listModuleCommands m.name
      let dA := insertD d m.name (pySort commands)
      match getShortAlias reg m.name with
      | some s => insertD dA s (pySort commands)
      | none => dA) d1
  let d3 := lazyMap.foldl (fun d e =>
    if (lookupD d e.1).isNone then
      let dA := insertD d e.1 (pySort e.2)
      match getShortAlias reg e.1 with
      | some s => insertD dA s (pySort e.2)
      | none => dA
    else d) d2
  (reg.allAliases.foldlM aliasMergeStep d3).map
    (fun d4 => updateD d4 (buildParameterCompletions reg))

/-- The `all_modules` set of the enhanced `build_completion_dict`: loaded
non-core modules with their aliases, then the completer's lazily declared
module names with their aliases (which require a live instance to
resolve). -/
def allModulesEnhanced (reg : Registry) (lazyMap : Dict) : List Str :=
  (reg.modules.flatMap (fun m =>
    if m.name ≠ "core".toList then
      m.name :: (match getShortAlias reg m.name with | some s => [s] | none => [])
    else [])) ++
  (lazyMap.flatMap (fun e =>
    e.1 :: (match getShortAlias reg e.1 with | some s => [s] | none => [])))

/-- Step 3 of the enhanced `build_completion_dict`, command-list resolution
for one member of `all_modules`: resolve a possible alias, read commands
from the registry for a live module and from the completer's lazy
declarations otherwise. -/
def enhancedModuleCommands (reg : Registry) (lazyMap : Dict) (mn : Str) : List Str :=
  if (reg.getModule ((resolveModuleAlias reg mn).getD mn)).isSome then
    reg.listModuleCommands ((resolveModuleAlias reg mn).getD mn)
  else
    (lookupD lazyMap ((resolveModuleAlias reg mn).getD mn)).getD []

/-- Step 3 of the enhanced `build_completion_dict` for one member of
`all_modules`: store the sorted command list when it is non-empty. -/
def enhancedModuleStep (reg : Registry) (lazyMap : Dict) (d : Dict) (mn : Str) : Dict :=
  if enhancedModuleCommands reg lazyMap mn ≠ [] then
    insertD d mn (pySort (enhancedModuleCommands reg lazyMap mn))
  else d

/-- `AutoCompleter.build_completion_dict` of the enhanced revision
(`auto_completer_enhanced.py`): the top-level entry is the sorted core
command list *extended* with the sorted module set; per-module command
lists are sourced from the registry for live modules and from the
completer's lazy declarations otherwise.  The `for module_name in
all_modules` loop iterates a Python set, whose order only affects dict
insertion order, never the final key-value mapping; the embedding iterates
the sorted deduplicated list. -/
def buildCompletionDictE (reg : Registry) (lazyMap : Dict) : Option Dict :=
  let d0 : Dict := insertD [] [] (pySort (reg.listModuleCommands "core".toList))
  (lookupD d0 []).bind (fun cur =>
    let d1 : Dict := insertD d0 [] (cur ++ pySortedSet (allModulesEnhanced reg lazyMap))
    let d2 := (pySortedSet (allModulesEnhanced reg lazyMap)).foldl
      (enhancedModuleStep reg lazyMap) d1
    (reg.allAliases.foldlM aliasMergeStep d2).map
      (fun d3 => updateD d3 (buildParameterCompletions reg)))

/-- `AutoCompleter.register_lazy_commands`: merge (set union), sort, store. -/
def registerLazyCommands (lazyMap : Dict) (moduleName : Str) (commands : List Str) : Dict :=
  let existing := (lookupD lazyMap moduleName).getD []
  insertD lazyMap moduleName (pySortedSet (existing ++ commands))

/-- Python `str.strip()`. -/
def pyStrip (s : Str) : Str :=
  ((s.dropWhile (fun c => isWs c)).reverse.dropWhile (fun c => isWs c)).reverse

/-- Python `str.split(sep)` for a one-character separator (keeps empty
pieces, always returns at least one piece). -/
def splitChar (sep : Char) : Str → List Str
  | [] => [[]]
  | c :: cs =>
    match splitChar sep cs with
    | g :: gs => if c = sep then [] :: g :: gs else (c :: g) :: gs
    | [] => [[c]]

/-- `AutoCompleter._extract_command_description`: prefer the wrapped
function's docstring, strip it, and take the first line; `None` or empty
docstrings yield the generic fallback.  The `lines[0]` access is the one
fallible operation. -/
def extractCommandDescription (h : Handler) : Option Str :=
  let doc := match h.originalFunc with
    | some f => f.doc
    | none => h.doc
  match doc with
  | some ds =>
    if ds ≠ [] then (splitChar '\n' (pyStrip ds)).head?
    else some "无描述".toList
  | none => some "无描述".toList

/-- `AutoCompleter._get_parameter_description`: look the parameter up in the
command's Pydantic field list, falling back to the generic parameter
label. -/
def getParameterDescription (reg : Registry) (param pfxStr : Str) : Str :=
  if ¬ pfxStr.contains ' ' then "参数".toList
  else
    match reg.getCommandInfo (resolveAlias reg pfxStr) with
    | none => "参数".toList
    | some info =>
      match info.2.2.originalFunc with
      | none => "参数".toList
      | some f =>
        match f.typedModel with
        | none => "参数".toList
        | some fields =>
          let paramName := (param.drop 2).map (fun c => if c = '-' then '_' else c)
          match fields.find? (fun fl => fl.name = paramName) with
          | none => "参数".toList
          | some fl =>
            match fl.description with
            | some desc => if desc ≠ [] then desc else "参数".toList
            | none => "参数".toList

/-- `AutoCompleter._get_completion_meta`: parameter, module, core-command
and sub-command descriptions, with generic fallbacks on lookup misses. -/
def getCompletionMeta (reg : Registry) (mtch pfxStr : Str) : Option Str :=
  if startsWithStr mtch "--".toList then
    some (getParameterDescription reg mtch pfxStr)
  else if pfxStr = [] then
    let module0 := match reg.getModule mtch with
      | some m => some m
      | none =>
        match resolveModuleAlias reg mtch with
        | some fullName => reg.getModule fullName
        | none => none
    match module0 with
    | some m => some (if m.description ≠ [] then m.description else "模块".toList)
    | none =>
      match reg.getCommandInfo mtch with
      | some info => extractCommandDescription info.2.2
      | none => some "命令".toList
  else
    let fullCommand := resolveAlias reg (pfxStr ++ [' '] ++ mtch)
    match reg.getCommandInfo fullCommand with
    | some info => extractCommandDescription info.2.2
    | none => some []

/-- `AutoCompleter._get_parameter_completions_for_context` of the core
revision. -/
def getParameterCompletionsForContext (reg : Registry) (words : List Str) : List Str :=
  if words.length < 2 then []
  else
    let fullCommand := resolveAlias reg (joinSpace words.dropLast)
    (lookupD (buildParameterCompletions reg) fullCommand).getD []

/-- The embedding of a Python generator loop that yields one element per
input item, where producing a single element can fail: succeeds with the
list of all yielded elements iff every step succeeds. -/
def optionTraverse (f : β → Option γ) : List β → Option (List γ)
  | [] => some []
  | a :: l => (f a).bind (fun b => (optionTraverse f l).map (fun bs => b :: bs))

/-- A produced `prompt_toolkit` `Completion`. -/
structure Completion where
  text : Str
  startPosition : Int
  display : Str
  displayMeta : Str
deriving DecidableEq

/-- The context resolution of `AutoCompleter.get_completions` (lines
289-309 of the core revision; identical in the enhanced one): split the
pre-cursor text, then derive `(prefix, word)` from the token count and
whether the raw text ends with a `' '` character.  Callers only reach this
with a non-empty token list. -/
def resolveContext (text : Str) : Option (Str × Str) :=
  let words := pySplit text
  let ews := endsWithSpace text
  if words.length = 1 then
    (words.get? 0).map (fun w0 => if ews then (w0, []) else ([], w0))
  else if words.length = 2 then
    (words.get? 0).bind (fun w0 => (words.get? 1).map (fun w1 => (w0, w1)))
  else
    (words.getLast?).map (fun wl => (joinSpace words.dropLast, wl))

/-- `AutoCompleter.get_completions` of the core revision: tokenise, serve
parameter completions for a trailing `-` token, otherwise rebuild the
completion dict, resolve the context, rank the candidate list (fuzzy with
threshold 50 when enabled and a word is being typed, else plain prefix
filter), and emit `Completion` records with metadata, sorted by text. -/
def getCompletions (reg : Registry) (lazyMap : Dict) (enableFuzzy : Bool) (text : Str) :
    Option (List Completion) :=
  let words := pySplit text
  if words = [] then some []
  else
    words.getLast?.bind (fun lastWord =>
      if startsWithStr lastWord "-".toList then
        let paramCompletions := getParameterCompletionsForContext reg words
        if paramCompletions ≠ [] then
          let word := lastWord
          let matchList := paramCompletions.filter (fun p => startsWithStr p word)
          some ((pySort matchList).map (fun m =>
            (⟨m, -(word.length : Int), m, "参数".toList⟩ : Completion)))
        else
          some []
      else
        (buildCompletionDict reg lazyMap).bind (fun d =>
          (resolveContext text).bind (fun ctx =>
            let candidates := (lookupD d ctx.1).getD []
            let matchList :=
              if enableFuzzy && ctx.2 ≠ [] then
                (CoreFM.coreMatch ctx.2 candidates).filterMap
                  (fun r => if 50 ≤ r.score then some r.candidate else none)
              else
                candidates.filter (fun c => startsWithStr c ctx.2)
            optionTraverse (fun m =>
              (getCompletionMeta reg m ctx.1).map (fun meta =>
                (⟨m, -(ctx.2.length : Int), m, meta⟩ : Completion))) (pySort matchList))))

/-- The top-level candidate list as §4.1 step 1 of the specification
describes it (this definition follows the spec's words, for comparison
with the code's value): the sorted union of the registry's core-module
command names, every non-core registered module's canonical name and (if
present) short alias, and every lazily declared module's canonical name
and alias (from the completer's declarations and the registry's lazy
tracker). -/
def specTopLevel (reg : Registry) (lazyMap : Dict) : List Str :=
  pySortedSet
    (reg.listModuleCommands "core".toList ++
     (reg.modules.flatMap (fun m =>
       if m.name ≠ "core".toList then m.name :: (getShortAlias reg m.name).toList else [])) ++
     lazyMap.map (fun e => e.1) ++
     (match reg.lazyTracker with
      | some t => t.lazyModules ++ t.aliasToModule.map (fun e => e.1)
      | none => []))

end AC

/-- The concrete registry of the C2 evaluation: core commands `exit` and
`status`, one live non-core module `database` without alias or commands,
nothing else. -/
def regC2 : AC.Registry where
  listModuleCommands := fun n => if n = "core".toList then ["exit".toList, "status".toList] else []
  modules := [⟨"database".toList, [], none⟩]
  getModule := fun n => if n = "database".toList then some ⟨"database".toList, [], none⟩ else none
  allCommands := []
  allAliases := []
  getCommandInfo := fun _ => none
  lazyTracker := none

/-- The empty registry used by concrete witnesses: no modules, no commands,
no aliases, no lazy tracker. -/
def regEmpty : AC.Registry where
  listModuleCommands := fun _ => []
  modules := []
  getModule := fun _ => none
  allCommands := []
  allAliases := []
  getCommandInfo := fun _ => none
  lazyTracker := none

section FMISanity

example : FMI.isSubsequence "env".toList "ssh env".toList = true := by decide

example : FMI.countConsecutiveMatches "env".toList "ssh env".toList = 1 := by decide

example : FMI.subsequenceMatch "env".toList "ssh env".toList = Rat.divInt 450 7 := by decide

example : (FMI.subsequenceMatch "env".toList "ssh env".toList < 70) = True := by decide

example : FMI.subsequenceMatch "ab".toList "xaxb".toList = 65 := by decide

example : FMI.levenshteinToScore 5 = 20 := by decide

example : FMI.levenshteinDistance "env".toList "eval".toList = 3 := by decide

example : FMI.matchSingle FMI.defaultConfig "env".toList "Environment".toList =
    ⟨"Environment".toList, 100, .prefixTier⟩ := by decide

example : CoreFM.subsequenceMatch "env".toList "ssh env".toList = 66 := by decide

example : CoreFM.subsequenceMatch "ab".toList "xaxb".toList = 59 := by decide

example : CoreFM.coreMatch "env".toList ["env".toList, "ssh env".toList] =
    [⟨"env".toList, 100⟩, ⟨"ssh env".toList, 66⟩] := by decide

example : AC.dictGet (AC.buildCompletionDict regC2 []) [] = ["database".toList] := by decide

example : AC.dictGet (AC.buildCompletionDictE regC2 []) [] =
    ["exit".toList, "status".toList, "database".toList] := by decide

example : AC.specTopLevel regC2 [] =
    ["database".toList, "exit".toList, "status".toList] := by decide

example : AC.resolveContext "database ".toList = some ("database".toList, []) := by decide

example : AC.resolveContext "database\t".toList = some ([], "database".toList) := by decide

example :
    AC.dictGet
      (AC.buildCompletionDictE regEmpty
        (AC.registerLazyCommands [] "database".toList ["connect".toList, "query".toList]))
      "database".toList = ["connect".toList, "query".toList] := by decide

example :
    "database".toList ∈
      AC.dictGet
        (AC.buildCompletionDictE regEmpty
          (AC.registerLazyCommands [] "database".toList ["connect".toList, "query".toList]))
        [] := by decide

end FMISanity

/-! ### Foundational lemmas -/

theorem insertS_perm (le : α → α → Bool) (x : α) (l : List α) :
    (insertS le x l).Perm (x :: l) := by
  induction l with
  | nil => simp [insertS]
  | cons y ys ih =>
    by_cases h : le x y = true
    · simp [insertS, h]
    · simp only [insertS, h, if_false]
      exact (ih.cons y).trans (List.Perm.swap x y ys)

theorem pySortBy_perm (le : α → α → Bool) (l : List α) :
    (pySortBy le l).Perm l := by
  induction l with
  | nil => simp [pySortBy]
  | cons x xs ih =>
    simpa [pySortBy] using ((insertS_perm le x (pySortBy le xs)).trans (ih.cons x))

theorem mem_pySortBy {le : α → α → Bool} {l : List α} {x : α} :
    x ∈ pySortBy le l ↔ x ∈ l :=
  (pySortBy_perm le l).mem_iff

theorem mem_pySortedSet {l : List Str} {x : Str} :
    x ∈ pySortedSet l ↔ x ∈ l := by
  unfold pySortedSet pySort
  rw [mem_pySortBy, List.mem_dedup]

theorem pySortedSet_nodup (l : List Str) : (pySortedSet l).Nodup :=
  ((pySortBy_perm lexLe l.dedup).nodup_iff).mpr (List.nodup_dedup l)

theorem splitChar_ne_nil (sep : Char) (s : Str) : AC.splitChar sep s ≠ [] := by
  cases s with
  | nil => simp [AC.splitChar]
  | cons c cs =>
    cases h : AC.splitChar sep cs with
    | nil => simp [AC.splitChar, h]
    | cons g gs =>
      simp only [AC.splitChar, h]
      split <;> simp

namespace AC

theorem lookupD_insertD_self {α : Type} (d : List (Str × α)) (k : Str) (v : α) :
    lookupD (insertD d k v) k = some v := by
  induction d with
  | nil => simp [insertD, lookupD]
  | cons e rest ih =>
    obtain ⟨k0, v0⟩ := e
    by_cases h : k0 = k
    · simp [insertD, lookupD, h]
    · simp [insertD, lookupD, h, ih]

theorem lookupD_insertD_ne {α : Type} (d : List (Str × α)) (k k' : Str) (v : α) (h : k' ≠ k) :
    lookupD (insertD d k v) k' = lookupD d k' := by
  have h' : k ≠ k' := fun hk => h hk.symm
  induction d with
  | nil => simp [insertD, lookupD, h']
  | cons e rest ih =>
    obtain ⟨k0, v0⟩ := e
    by_cases he : k0 = k
    · subst he
      simp [insertD, lookupD, h']
    · simp [insertD, lookupD, he, ih]

theorem lookupD_cons_eq_none {α : Type} (e : Str × α) (rest : List (Str × α)) (k : Str) :
    lookupD (e :: rest) k = none ↔ e.1 ≠ k ∧ lookupD rest k = none := by
  by_cases h : e.1 = k <;> simp [lookupD, h]

theorem mem_of_lookupD_some {α : Type} {d : List (Str × α)} {k : Str} {v : α}
    (h : lookupD d k = some v) : (k, v) ∈ d := by
  induction d with
  | nil => simp [lookupD] at h
  | cons e rest ih =>
    by_cases he : e.1 = k
    · simp only [lookupD, he, if_pos] at h
      obtain ⟨k0, v0⟩ := e
      cases he
      cases h
      exact List.mem_cons_self _ _
    · simp only [lookupD, he, if_false] at h
      exact List.mem_cons_of_mem _ (ih h)

theorem lookupD_updateD_none (d : Dict) (upd : Dict) (k : Str)
    (h : lookupD upd k = none) :
    lookupD (updateD d upd) k = lookupD d k := by
  induction upd generalizing d with
  | nil => simp [updateD]
  | cons e rest ih =>
    rw [lookupD_cons_eq_none] at h
    show lookupD (updateD (insertD d e.1 e.2) rest) k = lookupD d k
    rw [ih _ h.2, lookupD_insertD_ne _ _ _ _ (fun hk => h.1 hk.symm)]

end AC

/-! ### The core subsequence bonus invariant (for C10) -/

theorem subseqLoop_bonus (q : Str) (cs : Str) :
    ∀ (i bonus : ℕ), bonus = 5 * (i - 1) →
      (CoreFM.subseqLoop q cs i ((i : ℤ) - 1) bonus).2.2 =
        5 * ((CoreFM.subseqLoop q cs i ((i : ℤ) - 1) bonus).1 - 1) := by
  induction cs with
  | nil => intro i bonus hb; simpa [CoreFM.subseqLoop] using hb
  | cons ch cs ih =>
    intro i bonus hb
    have hcast : (i : ℤ) = ((i + 1 : ℕ) : ℤ) - 1 := by push_cast; ring
    have hcond : (0 ≤ (i : ℤ) - 1 ∧ (i : ℤ) = (i : ℤ) - 1 + 1) ↔ 1 ≤ i := by omega
    by_cases hch : q.get? i = some ch
    · simp only [CoreFM.subseqLoop, if_pos hch]
      rw [if_congr hcond rfl rfl]
      by_cases h1 : 1 ≤ i
      · rw [if_pos h1, hcast]
        exact ih (i + 1) (bonus + 5) (by omega)
      · rw [if_neg h1, hcast]
        exact ih (i + 1) bonus (by omega)
    · simp only [CoreFM.subseqLoop, if_neg hch]
      exact ih i bonus hb

/-! ### Claim C10 -/

/-- C10: In the core module's `FuzzyMatcher._subsequence_match`, for every
non-empty query of length `n` that passes the case-folded subsequence scan
against a candidate of length at least `n`, the returned score is exactly
`50 + 5*(n-1) + min(20, 2*n)`: the consecutive-match bonus is awarded for
every matched query character after the first regardless of where the
matches land in the candidate, so the score depends only on the query's
length. -/
theorem coreSubsequence_score_depends_only_on_query_length (q c : Str)
    (hq : q ≠ [])
    (hlen : q.length ≤ c.length)
    (hpass : (CoreFM.subseqLoop (pyLower q) (pyLower c) 0 (-1) 0).1 = (pyLower q).length) :
    CoreFM.subsequenceMatch q c = 50 + 5 * (q.length - 1) + min 20 (2 * q.length) := by
  have hneg1 : ((-1 : ℤ)) = ((0 : ℕ) : ℤ) - 1 := by norm_num
  have hbonus := subseqLoop_bonus (pyLower q) (pyLower c) 0 0 (by norm_num)
  rw [← hneg1] at hbonus
  unfold CoreFM.subsequenceMatch
  rw [if_neg (by
    rw [not_or]
    exact ⟨hq, Nat.not_lt.mpr hlen⟩)]
  rw [if_neg (by
    intro hne
    exact hne hpass)]
  rw [hbonus, hpass]
  simp only [pyLower, List.length_map]
  rw [Nat.mul_comm q.length 2]

/-- Witness for C10 at query `"ab"` and candidate `"xaxb"`. -/
theorem coreSubsequence_score_depends_only_on_query_length_witness :
    "ab".toList ≠ []
    ∧ "ab".toList.length ≤ "xaxb".toList.length
    ∧ (CoreFM.subseqLoop (pyLower "ab".toList) (pyLower "xaxb".toList) 0 (-1) 0).1 =
        (pyLower "ab".toList).length
    ∧ CoreFM.subsequenceMatch "ab".toList "xaxb".toList =
        50 + 5 * ("ab".toList.length - 1) + min 20 (2 * "ab".toList.length) :=
  ⟨by decide, by decide, by decide,
    coreSubsequence_score_depends_only_on_query_length "ab".toList "xaxb".toList
      (by decide) (by decide) (by decide)⟩

/-! ### Claim C4 -/

/-- C4: For every candidate list, ranking with the empty query returns
every candidate with score 0 and no match tier assigned (`match_type`
`"none"`), and the returned list has the same cardinality as the input
(`FuzzyMatcher.match` of `fuzzy_matcher_implementation.py`, the revision
whose scoring convention the specification adopts; the core-module
revision instead returns score 100 here, a divergence the spec's §9
scoring-scale note acknowledges). -/
theorem fmMatch_empty_query (cfg : FMI.Config) (cands : List Str) :
    FMI.fmMatch cfg [] cands =
      cands.map (fun c => ⟨c, 0, FMI.MatchType.noneTier⟩)
    ∧ (FMI.fmMatch cfg [] cands).length = cands.length := by
  constructor
  · simp [FMI.fmMatch]
  · simp [FMI.fmMatch]

/-! ### Claim C5 -/

/-- C5: For every non-empty query and every candidate that case-insensitively
starts with the query, `FuzzyMatcher.match` assigns that candidate score 100
with match kind Prefix: `_match_single` returns exactly that record, and the
record appears in the `match` output. -/
theorem fmi_prefix_tier (q c : Str) (cands : List Str) (hq : q ≠ []) (hc : c ∈ cands)
    (hpfx : startsWithStr (pyLower c) (pyLower q) = true) :
    FMI.matchSingle FMI.defaultConfig q c = ⟨c, 100, FMI.MatchType.prefixTier⟩
    ∧ (⟨c, 100, FMI.MatchType.prefixTier⟩ : FMI.MatchResult) ∈
        FMI.fmMatch FMI.defaultConfig q cands := by
  have h1 : FMI.matchSingle FMI.defaultConfig q c = ⟨c, 100, FMI.MatchType.prefixTier⟩ := by
    unfold FMI.matchSingle
    simp [FMI.defaultConfig, hpfx]
  refine ⟨h1, ?_⟩
  unfold FMI.fmMatch
  rw [if_neg hq]
  apply List.mem_filter.mpr
  constructor
  · exact mem_pySortBy.mpr (List.mem_map.mpr ⟨c, hc, h1⟩)
  · show decide ((100 : ℚ) > 0) = true
    decide

/-- Witness for C5 at query `"EN"`, candidate `"env"`. -/
theorem fmi_prefix_tier_witness :
    "EN".toList ≠ []
    ∧ "env".toList ∈ ["env".toList]
    ∧ startsWithStr (pyLower "env".toList) (pyLower "EN".toList) = true
    ∧ FMI.matchSingle FMI.defaultConfig "EN".toList "env".toList =
        ⟨"env".toList, 100, FMI.MatchType.prefixTier⟩
    ∧ (⟨"env".toList, 100, FMI.MatchType.prefixTier⟩ : FMI.MatchResult) ∈
        FMI.fmMatch FMI.defaultConfig "EN".toList ["env".toList] := by
  have h := fmi_prefix_tier "EN".toList "env".toList ["env".toList]
    (by decide) (by decide) (by decide)
  exact ⟨by decide, by decide, by decide, h.1, h.2⟩

/-! ### Claim C6 -/

/-- C6: In the edit-distance tier of `FuzzyMatcher.match` (reached when
neither the prefix nor the subsequence tier fires), a candidate whose
Levenshtein distance to the query exceeds `maxDistance` (default 3) is
rejected with score 0, an accepted candidate is scored by
`_levenshtein_to_score`, and that fixed lookup maps distance 1 to 80, 2 to
60, 3 to 40, and any distance beyond 3 to `max(0, 40 - (distance-3)*10)`. -/
theorem fmi_levenshtein_tier_scoring (md : ℕ) (q c : Str)
    (hq : q ≠ [])
    (hpfx : startsWithStr (pyLower c) (pyLower q) = false)
    (hsub : FMI.subsequenceMatch (pyLower q) (pyLower c) = 0) :
    (md < FMI.levenshteinDistance (pyLower q) (pyLower c) →
       FMI.matchSingle ⟨true, true, true, md⟩ q c = ⟨c, 0, FMI.MatchType.noneTier⟩)
    ∧ (FMI.levenshteinDistance (pyLower q) (pyLower c) ≤ md →
       FMI.matchSingle ⟨true, true, true, md⟩ q c =
         ⟨c, FMI.levenshteinToScore (FMI.levenshteinDistance (pyLower q) (pyLower c)),
           FMI.MatchType.levenshteinTier⟩)
    ∧ (∀ cands, (⟨c, 0, FMI.MatchType.noneTier⟩ : FMI.MatchResult) ∉
         FMI.fmMatch ⟨true, true, true, md⟩ q cands)
    ∧ FMI.levenshteinToScore 1 = 80
    ∧ FMI.levenshteinToScore 2 = 60
    ∧ FMI.levenshteinToScore 3 = 40
    ∧ (∀ k, 3 < k → FMI.levenshteinToScore k = max 0 (40 - ((k : ℚ) - 3) * 10)) := by
  refine ⟨?_, ?_, ?_, by decide, by decide, by decide, ?_⟩
  · intro hd
    unfold FMI.matchSingle
    simp only [hpfx, Bool.and_false, Bool.false_eq_true, if_false, hsub]
    rw [if_neg (by simp), if_neg (by simp [Nat.not_le.mpr hd])]
  · intro hd
    unfold FMI.matchSingle
    simp only [hpfx, Bool.and_false, Bool.false_eq_true, if_false, hsub]
    rw [if_neg (by simp), if_pos (by simp [hd])]
  · intro cands hmem
    unfold FMI.fmMatch at hmem
    rw [if_neg hq] at hmem
    have h2 := (List.mem_filter.mp hmem).2
    revert h2
    show decide ((0 : ℚ) > 0) = true → False
    decide
  · intro k hk
    unfold FMI.levenshteinToScore
    rw [if_neg (by omega), if_neg (by omega), if_neg (by omega), if_neg (by omega)]
    rw [Rat.ofInt_eq_cast]
    push_cast
    rfl

/-- Witness for C6 at `maxDistance = 3`, query `"abcd"`, candidate `"wxyz"`
(distance 4, rejected) with the decayed-tail lookup instantiated at
distance 5. -/
theorem fmi_levenshtein_tier_scoring_witness :
    "abcd".toList ≠ []
    ∧ startsWithStr (pyLower "wxyz".toList) (pyLower "abcd".toList) = false
    ∧ FMI.subsequenceMatch (pyLower "abcd".toList) (pyLower "wxyz".toList) = 0
    ∧ 3 < FMI.levenshteinDistance (pyLower "abcd".toList) (pyLower "wxyz".toList)
    ∧ FMI.matchSingle ⟨true, true, true, 3⟩ "abcd".toList "wxyz".toList =
        ⟨"wxyz".toList, 0, FMI.MatchType.noneTier⟩
    ∧ FMI.levenshteinToScore 5 = max 0 (40 - ((5 : ℚ) - 3) * 10) := by
  have h := fmi_levenshtein_tier_scoring 3 "abcd".toList "wxyz".toList
    (by decide) (by decide) (by decide)
  exact ⟨by decide, by decide, by decide, by decide, h.1 (by decide),
    h.2.2.2.2.2.2 5 (by decide)⟩

/-! ### Claim C8 (evaluation of the code at the spec's worked example) -/

/-- C8: `FuzzyMatcher.match` of `fuzzy_matcher_implementation.py` applied to
query `"env"` and candidates `["env", "ssh env", "environment", "eval"]`
assigns `"env"` and `"environment"` score 100 with kind Prefix as the claim
states, but classifies `"ssh env"` in the Subsequence tier with score
450/7 ≈ 64.29, which is *not* greater than 70: `_count_consecutive_matches`
returns 1 instead of the 3 its own docstring promises for this input, so
the claimed consecutive-run bonus is never earned. -/
theorem fmMatch_env_worked_example :
    FMI.fmMatch FMI.defaultConfig "env".toList
        ["env".toList, "ssh env".toList, "environment".toList, "eval".toList] =
      [⟨"env".toList, 100, FMI.MatchType.prefixTier⟩,
       ⟨"environment".toList, 100, FMI.MatchType.prefixTier⟩,
       ⟨"ssh env".toList, Rat.divInt 450 7, FMI.MatchType.subsequenceTier⟩,
       ⟨"eval".toList, 40, FMI.MatchType.levenshteinTier⟩]
    ∧ FMI.countConsecutiveMatches "env".toList "ssh env".toList = 1
    ∧ ¬ ((70 : ℚ) < Rat.divInt 450 7) := by
  refine ⟨by decide, by decide, by decide⟩

/-! ### Claim C7 -/

theorem fmMatch_mem_decomp {cfg : FMI.Config} {q : Str} {cands : List Str}
    {r : FMI.MatchResult} (hq : q ≠ []) (hr : r ∈ FMI.fmMatch cfg q cands) :
    (∃ c ∈ cands, r = FMI.matchSingle cfg q c) ∧ 0 < r.score := by
  unfold FMI.fmMatch at hr
  rw [if_neg hq] at hr
  have h1 := List.mem_filter.mp hr
  refine ⟨?_, of_decide_eq_true h1.2⟩
  obtain ⟨c, hc, hcr⟩ := List.mem_map.mp (mem_pySortBy.mp h1.1)
  exact ⟨c, hc, hcr.symm⟩

theorem matchSingle_subseqTier (q c : Str)
    (h : (FMI.matchSingle FMI.defaultConfig q c).matchType = FMI.MatchType.subsequenceTier) :
    FMI.matchSingle FMI.defaultConfig q c =
      ⟨c, FMI.subsequenceMatch (pyLower q) (pyLower c), FMI.MatchType.subsequenceTier⟩
    ∧ 0 < FMI.subsequenceMatch (pyLower q) (pyLower c) := by
  unfold FMI.matchSingle at h ⊢
  simp only [FMI.defaultConfig, Bool.true_and, if_true] at h ⊢
  by_cases h1 : startsWithStr (pyLower c) (pyLower q) = true
  · rw [if_pos h1] at h
    simp at h
  · rw [if_neg h1] at h ⊢
    by_cases h2 : 0 < FMI.subsequenceMatch (pyLower q) (pyLower c)
    · exact ⟨by rw [if_pos (by simpa using h2)], h2⟩
    · rw [if_neg (by simpa using h2)] at h
      by_cases h3 : FMI.levenshteinDistance (pyLower q) (pyLower c) ≤ 3
      · rw [if_pos (by simpa using h3)] at h
        simp at h
      · rw [if_neg (by simpa using h3)] at h
        simp at h

theorem subsequenceMatch_pos_bounds (ql cl : Str)
    (hpos : 0 < FMI.subsequenceMatch ql cl) :
    50 ≤ FMI.subsequenceMatch ql cl ∧ FMI.subsequenceMatch ql cl ≤ 90 := by
  unfold FMI.subsequenceMatch at hpos ⊢
  by_cases hss : FMI.isSubsequence ql cl = false
  · rw [if_pos hss] at hpos
    exact absurd hpos (lt_irrefl 0)
  · rw [if_neg hss] at hpos ⊢
    refine ⟨?_, min_le_right _ _⟩
    rcases Nat.eq_zero_or_pos cl.length with h0 | h0
    · exfalso
      rw [h0] at hpos
      simp only [Nat.cast_zero, Rat.divInt_zero] at hpos
      exact absurd hpos (by norm_num)
    · have hden : (0 : ℚ) < ((cl.length : ℤ) : ℚ) := by exact_mod_cast h0
      apply le_min ?_ (by norm_num)
      rw [Rat.divInt_eq_div, le_div_iff₀ hden]
      have h50 : (50 : ℤ) ≤ 50 + min ((FMI.countConsecutiveMatches ql cl : ℤ) * 10) 20 +
          (if cl.head? = ql.head? then 10 else 0) := by
        have hb : (0 : ℤ) ≤ min ((FMI.countConsecutiveMatches ql cl : ℤ) * 10) 20 :=
          le_min (by positivity) (by norm_num)
        have hi : (0 : ℤ) ≤ (if cl.head? = ql.head? then (10 : ℤ) else 0) := by
          split <;> norm_num
        omega
      have hzn : (50 : ℤ) * cl.length ≤
          (50 + min ((FMI.countConsecutiveMatches ql cl : ℤ) * 10) 20 +
            (if cl.head? = ql.head? then 10 else 0)) * cl.length + 10 * ql.length := by
        have hm := mul_le_mul_of_nonneg_right h50
          (by positivity : (0 : ℤ) ≤ (cl.length : ℤ))
        have hr : (0 : ℤ) ≤ 10 * ql.length := by positivity
        linarith
      rw [show (50 : ℚ) * ((cl.length : ℤ) : ℚ) = (((50 * (cl.length : ℤ)) : ℤ) : ℚ) by
        push_cast; ring]
      exact_mod_cast hzn

/-- C7: every result that `FuzzyMatcher.match` (default configuration)
classifies in the Subsequence tier carries a score `s` with
`50 ≤ s ≤ 90`. -/
theorem fmi_subsequence_tier_bounds (q : Str) (cands : List Str) (r : FMI.MatchResult)
    (hq : q ≠ []) (hr : r ∈ FMI.fmMatch FMI.defaultConfig q cands)
    (ht : r.matchType = FMI.MatchType.subsequenceTier) :
    50 ≤ r.score ∧ r.score ≤ 90 := by
  obtain ⟨⟨c, hc, hrc⟩, hpos⟩ := fmMatch_mem_decomp hq hr
  subst hrc
  have h1 := matchSingle_subseqTier q c ht
  rw [h1.1]
  exact subsequenceMatch_pos_bounds _ _ h1.2

/-- Witness for C7 at query `"ab"` against candidate list `["xaxb"]`, whose
subsequence-tier result scores 65. -/
theorem fmi_subsequence_tier_bounds_witness :
    "ab".toList ≠ []
    ∧ (⟨"xaxb".toList, 65, FMI.MatchType.subsequenceTier⟩ : FMI.MatchResult) ∈
        FMI.fmMatch FMI.defaultConfig "ab".toList ["xaxb".toList]
    ∧ 50 ≤ (FMI.MatchResult.mk "xaxb".toList 65 FMI.MatchType.subsequenceTier).score
    ∧ (FMI.MatchResult.mk "xaxb".toList 65 FMI.MatchType.subsequenceTier).score ≤ 90 := by
  have h := fmi_subsequence_tier_bounds "ab".toList ["xaxb".toList]
    ⟨"xaxb".toList, 65, FMI.MatchType.subsequenceTier⟩ (by decide) (by decide) (by decide)
  exact ⟨by decide, by decide, h.1, h.2⟩

/-! ### Claim C9 -/

/-- C9 (counterexample to the claim as stated): `"database\t"` tokenises to
the single token `"database"` and ends with a whitespace character, yet the
context resolution of `AutoCompleter.get_completions` yields
`prefix = ""`, `partialWord = "database"` — not `prefix = "database"`,
`partialWord = ""` as the claim's trailing-whitespace case requires —
because the code tests `text.endswith(" ")` for the space character only. -/
theorem resolveContext_trailing_tab_counterexample :
    (pySplit "database\t".toList).length = 1
    ∧ isWs '\t' = true
    ∧ "database\t".toList.getLast? = some '\t'
    ∧ AC.resolveContext "database\t".toList = some ([], "database".toList)
    ∧ AC.resolveContext "database\t".toList ≠ some ("database".toList, []) := by
  refine ⟨by decide, by decide, by decide, by decide, by decide⟩

/-- C9 (amended): context resolution in `AutoCompleter.get_completions`
splits the pre-cursor text as follows — for exactly one whitespace token
with a trailing *space character* (`' '`, the only character the code's
`text.endswith(" ")` test accepts), `prefix` is the token and the partial
word is empty; for exactly one token without a trailing space, `prefix` is
empty and the partial word is the token; for exactly two tokens, `prefix`
is the first and the partial word the second; for more than two tokens,
`prefix` joins all but the last token and the partial word is the last. -/
theorem resolveContext_four_way_split (text : Str) :
    ((pySplit text).length = 1 → endsWithSpace text = true →
       AC.resolveContext text = some ((pySplit text).headD [], []))
    ∧ ((pySplit text).length = 1 → endsWithSpace text = false →
       AC.resolveContext text = some ([], (pySplit text).headD []))
    ∧ ((pySplit text).length = 2 →
       AC.resolveContext text =
         some ((pySplit text).headD [], (pySplit text).getLastD []))
    ∧ (2 < (pySplit text).length →
       AC.resolveContext text =
         some (joinSpace (pySplit text).dropLast, (pySplit text).getLastD [])) := by
  refine ⟨?_, ?_, ?_, ?_⟩
  · intro h1 hews
    obtain ⟨a, ha⟩ := List.length_eq_one.mp h1
    unfold AC.resolveContext
    simp [ha, hews]
  · intro h1 hews
    obtain ⟨a, ha⟩ := List.length_eq_one.mp h1
    unfold AC.resolveContext
    simp [ha, hews]
  · intro h2
    obtain ⟨a, b, hab⟩ := List.length_eq_two.mp h2
    unfold AC.resolveContext
    simp [hab]
  · intro h3
    have hne : pySplit text ≠ [] := by
      intro hnil
      rw [hnil] at h3
      simp at h3
    obtain ⟨wl, hwl⟩ := Option.isSome_iff_exists.mp (List.getLast?_isSome.mpr hne)
    unfold AC.resolveContext
    rw [if_neg (by omega), if_neg (by omega), hwl]
    simp [List.getLastD_eq_getLast?, hwl]

/-- Witness for C9 (amended) at the claim's own motivating inputs:
`"database "` (trailing space) resolves to sub-command context while
`"database"` (no trailing space) resolves to top-level context. -/
theorem resolveContext_four_way_split_witness :
    (pySplit "database ".toList).length = 1
    ∧ endsWithSpace "database ".toList = true
    ∧ AC.resolveContext "database ".toList = some ("database".toList, [])
    ∧ (pySplit "database".toList).length = 1
    ∧ endsWithSpace "database".toList = false
    ∧ AC.resolveContext "database".toList = some ([], "database".toList) := by
  refine ⟨by decide, by decide, ?_, by decide, by decide, ?_⟩
  · exact (resolveContext_four_way_split "database ".toList).1 (by decide) (by decide)
  · exact (resolveContext_four_way_split "database".toList).2.1 (by decide) (by decide)

/-! ### Claim C1 -/

theorem foldlM_option_isSome {β γ : Type} {f : β → γ → Option β}
    (hf : ∀ b a, (f b a).isSome = true) :
    ∀ (l : List γ) (b : β), (l.foldlM f b).isSome = true := by
  intro l
  induction l with
  | nil => intro b; simp
  | cons a l ih =>
    intro b
    rw [List.foldlM_cons]
    obtain ⟨b1, hb1⟩ := Option.isSome_iff_exists.mp (hf b a)
    rw [hb1]
    simpa using ih b1

theorem optionTraverse_isSome {β γ : Type} (f : β → Option γ) :
    ∀ (l : List β), (∀ a ∈ l, (f a).isSome = true) →
      (AC.optionTraverse f l).isSome = true := by
  intro l
  induction l with
  | nil => intro _; simp [AC.optionTraverse]
  | cons a l ih =>
    intro h
    obtain ⟨b, hb⟩ := Option.isSome_iff_exists.mp (h a (List.mem_cons_self a l))
    obtain ⟨bs, hbs⟩ :=
      Option.isSome_iff_exists.mp (ih (fun x hx => h x (List.mem_cons_of_mem _ hx)))
    simp [AC.optionTraverse, hb, hbs]

theorem lookupD_ensureKey_isSome (d : AC.Dict) (k : Str) :
    (AC.lookupD (AC.ensureKey d k) k).isSome = true := by
  unfold AC.ensureKey
  by_cases hl : (AC.lookupD d k).isNone = true
  · rw [if_pos hl, AC.lookupD_insertD_self]
    rfl
  · rw [if_neg hl]
    exact Option.ne_none_iff_isSome.mp (by simpa [Option.isNone_iff_eq_none] using hl)

theorem aliasEnsureAppend_isSome (d : AC.Dict) (am ac : Str) :
    (AC.aliasEnsureAppend d am ac).isSome = true := by
  obtain ⟨v, hv⟩ := Option.isSome_iff_exists.mp (lookupD_ensureKey_isSome d am)
  unfold AC.aliasEnsureAppend
  rw [hv]
  rfl

theorem aliasMergeStep_isSome (d : AC.Dict) (ap : Str × Str) :
    (AC.aliasMergeStep d ap).isSome = true := by
  unfold AC.aliasMergeStep
  split
  · split
    · exact aliasEnsureAppend_isSome _ _ _
    · rfl
  · rfl

theorem buildCompletionDict_isSome (reg : AC.Registry) (lazyMap : AC.Dict) :
    (AC.buildCompletionDict reg lazyMap).isSome = true := by
  unfold AC.buildCompletionDict
  simp only [Option.isSome_map']
  exact foldlM_option_isSome aliasMergeStep_isSome _ _

theorem buildCompletionDictE_isSome (reg : AC.Registry) (lazyMap : AC.Dict) :
    (AC.buildCompletionDictE reg lazyMap).isSome = true := by
  unfold AC.buildCompletionDictE
  simp only [AC.lookupD_insertD_self, Option.some_bind, Option.isSome_map']
  exact foldlM_option_isSome aliasMergeStep_isSome _ _

theorem docFirstLine_isSome (doc : Option Str) :
    (match doc with
     | some ds =>
       if ds ≠ [] then (AC.splitChar '\n' (AC.pyStrip ds)).head?
       else some "无描述".toList
     | none => some "无描述".toList).isSome = true := by
  cases doc with
  | some ds =>
    by_cases hds : ds = []
    · simp [hds]
    · cases hsc : AC.splitChar '\n' (AC.pyStrip ds) with
      | nil => exact absurd hsc (splitChar_ne_nil _ _)
      | cons a as => simp [hds, hsc]
  | none => simp

theorem extractCommandDescription_isSome (h : AC.Handler) :
    (AC.extractCommandDescription h).isSome = true := by
  unfold AC.extractCommandDescription
  cases ho : h.originalFunc with
  | some f => simpa [ho] using docFirstLine_isSome f.doc
  | none => simpa [ho] using docFirstLine_isSome h.doc

theorem getCompletionMeta_isSome (reg : AC.Registry) (mtch pfxStr : Str) :
    (AC.getCompletionMeta reg mtch pfxStr).isSome = true := by
  unfold AC.getCompletionMeta
  by_cases h1 : startsWithStr mtch "--".toList = true
  · rw [if_pos h1]
    rfl
  · rw [if_neg h1]
    by_cases h2 : pfxStr = []
    · rw [if_pos h2]
      cases hm : reg.getModule mtch with
      | some m => simp [hm]
      | none =>
        simp only [hm]
        cases hra : AC.resolveModuleAlias reg mtch with
        | some fullName =>
          simp only [hra]
          cases hm2 : reg.getModule fullName with
          | some m => simp [hm2]
          | none =>
            simp only [hm2]
            cases hci : reg.getCommandInfo mtch with
            | some info => simpa [hci] using extractCommandDescription_isSome info.2.2
            | none => simp [hci]
        | none =>
          simp only [hra]
          cases hci : reg.getCommandInfo mtch with
          | some info => simpa [hci] using extractCommandDescription_isSome info.2.2
          | none => simp [hci]
    · rw [if_neg h2]
      show (match reg.getCommandInfo (AC.resolveAlias reg (pfxStr ++ [' '] ++ mtch)) with
            | some info => AC.extractCommandDescription info.2.2
            | none => some []).isSome = true
      split
      · exact extractCommandDescription_isSome _
      · rfl

theorem resolveContext_isSome (text : Str) (h : pySplit text ≠ []) :
    (AC.resolveContext text).isSome = true := by
  unfold AC.resolveContext
  by_cases h1 : (pySplit text).length = 1
  · obtain ⟨a, ha⟩ := List.length_eq_one.mp h1
    simp [ha]
  · by_cases h2 : (pySplit text).length = 2
    · obtain ⟨a, b, hab⟩ := List.length_eq_two.mp h2
      simp [hab]
    · rw [if_neg h1, if_neg h2, Option.isSome_map']
      exact List.getLast?_isSome.mpr h

/-- C1: for every input string and every registry state (registry methods
total), the completion entry point `AutoCompleter.get_completions` produces
a (possibly empty) list of completions: every fallible operation on its
path — the `words[-1]`/`words[0]`/`words[1]` indexing, the completion-dict
rebuild with its guarded dict access, and the `lines[0]` docstring access
inside metadata extraction — is shown in bounds, so the embedded generator
never fails. -/
theorem getCompletions_total (reg : AC.Registry) (lazyMap : AC.Dict) (enableFuzzy : Bool)
    (text : Str) : (AC.getCompletions reg lazyMap enableFuzzy text).isSome = true := by
  unfold AC.getCompletions
  by_cases hw : pySplit text = []
  · simp [hw]
  · rw [if_neg hw]
    obtain ⟨lw, hlw⟩ := Option.isSome_iff_exists.mp (List.getLast?_isSome.mpr hw)
    rw [hlw, Option.some_bind]
    by_cases hdash : startsWithStr lw "-".toList = true
    · rw [if_pos hdash]
      by_cases hp : AC.getParameterCompletionsForContext reg (pySplit text) = []
      · simp [hp]
      · simp [hp]
    · rw [if_neg hdash]
      obtain ⟨d, hd⟩ := Option.isSome_iff_exists.mp (buildCompletionDict_isSome reg lazyMap)
      rw [hd, Option.some_bind]
      obtain ⟨ctx, hctx⟩ := Option.isSome_iff_exists.mp (resolveContext_isSome text hw)
      rw [hctx, Option.some_bind]
      apply optionTraverse_isSome
      intro m _
      rw [Option.isSome_map']
      exact getCompletionMeta_isSome reg m ctx.1

/-! ### Claim C2 (evaluation of the rebuild at a failing input) -/

/-- C2 (failing input): with core commands `["exit", "status"]` and the
single live non-core module `database`, the core revision's rebuild stores
`[""] ↦ ["database"]` — the core command names are overwritten by the
`sorted(all_modules)` assignment — while the claim's sorted union is
`["database", "exit", "status"]`; the enhanced revision restores the core
commands but appends the sorted module set after the sorted core commands,
so its `[""]` value `["exit", "status", "database"]` is not the sorted
union either. -/
theorem buildCompletionDict_top_level_divergence :
    AC.dictGet (AC.buildCompletionDict regC2 []) [] = ["database".toList]
    ∧ AC.dictGet (AC.buildCompletionDictE regC2 []) [] =
        ["exit".toList, "status".toList, "database".toList]
    ∧ AC.specTopLevel regC2 [] = ["database".toList, "exit".toList, "status".toList]
    ∧ AC.dictGet (AC.buildCompletionDict regC2 []) [] ≠ AC.specTopLevel regC2 []
    ∧ AC.dictGet (AC.buildCompletionDictE regC2 []) [] ≠ AC.specTopLevel regC2 [] := by
  refine ⟨by decide, by decide, by decide, by decide, by decide⟩

/-! ### Claim C3: supporting lemmas -/

theorem lookupD_ensureKey_ne (d : AC.Dict) (am k : Str) (h : k ≠ am) :
    AC.lookupD (AC.ensureKey d am) k = AC.lookupD d k := by
  unfold AC.ensureKey
  split
  · exact AC.lookupD_insertD_ne _ _ _ _ h
  · rfl

theorem aliasEnsureAppend_mono {d d' : AC.Dict} {am ac : Str}
    (h : AC.aliasEnsureAppend d am ac = some d') (k x : Str)
    (hx : x ∈ (AC.lookupD d k).getD []) : x ∈ (AC.lookupD d' k).getD [] := by
  unfold AC.aliasEnsureAppend at h
  cases hv : AC.lookupD (AC.ensureKey d am) am with
  | none => rw [hv] at h; cases h
  | some v =>
    rw [hv] at h
    injection h with h
    subst h
    by_cases hk : k = am
    · subst hk
      cases hd : AC.lookupD d k with
      | none => rw [hd] at hx; cases hx
      | some w =>
        have hek : AC.ensureKey d k = d := by
          unfold AC.ensureKey
          rw [if_neg (by simp [hd])]
        rw [hek] at hv ⊢
        rw [hd] at hv hx
        injection hv with hv
        subst hv
        by_cases hm : ac ∈ w
        · rw [if_pos hm, hd]
          exact hx
        · rw [if_neg hm, AC.lookupD_insertD_self]
          exact List.mem_append_left _ hx
    · have he : AC.lookupD (AC.ensureKey d am) k = AC.lookupD d k :=
        lookupD_ensureKey_ne d am k hk
      by_cases hm : ac ∈ v
      · rw [if_pos hm, he]
        exact hx
      · rw [if_neg hm, AC.lookupD_insertD_ne _ _ _ _ hk, he]
        exact hx

theorem aliasMergeStep_mono {d d' : AC.Dict} {ap : Str × Str}
    (h : AC.aliasMergeStep d ap = some d') (k x : Str)
    (hx : x ∈ (AC.lookupD d k).getD []) : x ∈ (AC.lookupD d' k).getD [] := by
  unfold AC.aliasMergeStep at h
  split at h
  · split at h
    · exact aliasEnsureAppend_mono h k x hx
    · injection h with h
      subst h
      exact hx
  · injection h with h
    subst h
    exact hx

theorem foldlM_aliasMerge_mono :
    ∀ (aps : List (Str × Str)) (d d' : AC.Dict),
      aps.foldlM AC.aliasMergeStep d = some d' →
      ∀ k x : Str, x ∈ (AC.lookupD d k).getD [] → x ∈ (AC.lookupD d' k).getD [] := by
  intro aps
  induction aps with
  | nil =>
    intro d d' h k x hx
    rw [List.foldlM_nil] at h
    injection h with h
    subst h
    exact hx
  | cons a aps ih =>
    intro d d' h k x hx
    rw [List.foldlM_cons] at h
    cases hstep : AC.aliasMergeStep d a with
    | none =>
      rw [hstep] at h
      cases h
    | some d1 =>
      rw [hstep] at h
      exact ih d1 d' h k x (aliasMergeStep_mono hstep k x hx)

theorem foldl_local_preserve {f : AC.Dict → Str → AC.Dict}
    (hf : ∀ (d : AC.Dict) (mn k : Str), k ≠ mn → AC.lookupD (f d mn) k = AC.lookupD d k)
    (names : List Str) (k : Str) (hk : k ∉ names) :
    ∀ d : AC.Dict, AC.lookupD (names.foldl f d) k = AC.lookupD d k := by
  induction names with
  | nil => intro d; rfl
  | cons n ns ih =>
    intro d
    rw [List.foldl_cons,
      ih (fun h => hk (List.mem_cons_of_mem _ h)) (f d n),
      hf d n k (fun he => hk (he ▸ List.mem_cons_self n ns))]

theorem foldl_local_get {f : AC.Dict → Str → AC.Dict}
    (hf : ∀ (d : AC.Dict) (mn k : Str), k ≠ mn → AC.lookupD (f d mn) k = AC.lookupD d k)
    (k : Str) (vk : List Str) (hset : ∀ d : AC.Dict, AC.lookupD (f d k) k = some vk) :
    ∀ (names : List Str), names.Nodup → k ∈ names →
      ∀ d : AC.Dict, AC.lookupD (names.foldl f d) k = some vk := by
  intro names
  induction names with
  | nil => intro _ hk; cases hk
  | cons n ns ih =>
    intro hnd hk d
    rw [List.foldl_cons]
    rcases List.mem_cons.mp hk with he | hm
    · subst he
      rw [foldl_local_preserve hf ns k (List.nodup_cons.mp hnd).1 (f d k), hset d]
    · exact ih (List.nodup_cons.mp hnd).2 hm (f d n)

theorem enhancedModuleStep_local (reg : AC.Registry) (lazyMap : AC.Dict) :
    ∀ (d : AC.Dict) (mn k : Str), k ≠ mn →
      AC.lookupD (AC.enhancedModuleStep reg lazyMap d mn) k = AC.lookupD d k := by
  intro d mn k h
  unfold AC.enhancedModuleStep
  split
  · exact AC.lookupD_insertD_ne _ _ _ _ h
  · rfl

theorem lookupD_paramAliasFold_none (cmd : Str) (params : List Str) (k : Str) :
    ∀ (aliases : List (Str × Str)), AC.lookupD aliases k = none →
      ∀ pd : AC.Dict, AC.lookupD pd k = none →
        AC.lookupD (aliases.foldl
          (fun pd2 ap => if ap.2 = cmd then AC.insertD pd2 ap.1 params else pd2) pd) k =
          none := by
  intro aliases
  induction aliases with
  | nil => intro _ pd h; exact h
  | cons a as ih =>
    intro hk pd h
    rw [AC.lookupD_cons_eq_none] at hk
    rw [List.foldl_cons]
    apply ih hk.2
    by_cases hc : a.2 = cmd
    · rw [if_pos hc, AC.lookupD_insertD_ne _ _ _ _ (fun he => hk.1 he.symm)]
      exact h
    · rw [if_neg hc]
      exact h

theorem paramCommandStep_none (reg : AC.Registry) (e : Str × (Str × Str × AC.Handler))
    (k : Str) (hek : e.1 ≠ k) (ha : AC.lookupD reg.allAliases k = none) :
    ∀ pd : AC.Dict, AC.lookupD pd k = none →
      AC.lookupD (AC.paramCommandStep reg pd e) k = none := by
  intro pd hpd
  unfold AC.paramCommandStep
  split
  · exact hpd
  · split
    · exact hpd
    · split
      · apply lookupD_paramAliasFold_none _ _ _ _ ha
        rw [AC.lookupD_insertD_ne _ _ _ _ (fun he => hek he.symm)]
        exact hpd
      · exact hpd

theorem lookupD_buildParameterCompletions_none (reg : AC.Registry) (k : Str)
    (hc : AC.lookupD reg.allCommands k = none)
    (ha : AC.lookupD reg.allAliases k = none) :
    AC.lookupD (AC.buildParameterCompletions reg) k = none := by
  unfold AC.buildParameterCompletions
  have main : ∀ (cmds : List (Str × (Str × Str × AC.Handler))),
      AC.lookupD cmds k = none → ∀ pd : AC.Dict, AC.lookupD pd k = none →
        AC.lookupD (cmds.foldl (AC.paramCommandStep reg) pd) k = none := by
    intro cmds
    induction cmds with
    | nil => intro _ pd h; exact h
    | cons e es ih =>
      intro hce pd hpd
      rw [AC.lookupD_cons_eq_none] at hce
      rw [List.foldl_cons]
      exact ih hce.2 _ (paramCommandStep_none reg e k hce.1 ha pd hpd)
  exact main reg.allCommands hc [] rfl

/-- C3: after `register_lazy_commands("database", ["connect", "query"])` and
a rebuild of the (enhanced) completion dict, `"database"` appears in the
top-level candidate list and `"connect"`/`"query"` appear under the
`"database"` key, even though the registry holds no live module instance
named `"database"`.  The freshness hypotheses make "holds no live module
instance named database" precise: no module resolves to or is aliased
`"database"`, and neither `"database"` nor the top-level key `""` is a
registered command path or command alias (so no later rebuild step can
shadow the two entries). -/
theorem registerLazy_then_rebuild_completes (reg : AC.Registry) (lazy0 : AC.Dict)
    (hmod : reg.getModule "database".toList = none)
    (hres : AC.resolveModuleAlias reg "database".toList = none)
    (hcmds : AC.lookupD reg.allCommands "database".toList = none)
    (halias : AC.lookupD reg.allAliases "database".toList = none)
    (hfresh : ([] : Str) ∉ AC.allModulesEnhanced reg
        (AC.registerLazyCommands lazy0 "database".toList ["connect".toList, "query".toList]))
    (hcmds0 : AC.lookupD reg.allCommands ([] : Str) = none)
    (halias0 : AC.lookupD reg.allAliases ([] : Str) = none) :
    (AC.buildCompletionDictE reg (AC.registerLazyCommands lazy0 "database".toList
        ["connect".toList, "query".toList])).isSome = true
    ∧ "database".toList ∈ AC.dictGet
        (AC.buildCompletionDictE reg (AC.registerLazyCommands lazy0 "database".toList
          ["connect".toList, "query".toList])) []
    ∧ "connect".toList ∈ AC.dictGet
        (AC.buildCompletionDictE reg (AC.registerLazyCommands lazy0 "database".toList
          ["connect".toList, "query".toList])) "database".toList
    ∧ "query".toList ∈ AC.dictGet
        (AC.buildCompletionDictE reg (AC.registerLazyCommands lazy0 "database".toList
          ["connect".toList, "query".toList])) "database".toList := by
  set db : Str := "database".toList with hdbdef
  set lz : AC.Dict :=
    AC.registerLazyCommands lazy0 db ["connect".toList, "query".toList] with hlzdef
  set CMD : List Str :=
    pySortedSet (((AC.lookupD lazy0 db).getD []) ++ ["connect".toList, "query".toList])
    with hCMDdef
  have hlz : AC.lookupD lz db = some CMD := by
    rw [hlzdef, AC.registerLazyCommands]
    exact AC.lookupD_insertD_self _ _ _
  have hconCMD : "connect".toList ∈ CMD := by
    rw [hCMDdef]
    exact mem_pySortedSet.mpr (List.mem_append_right _ (by simp))
  have hquCMD : "query".toList ∈ CMD := by
    rw [hCMDdef]
    exact mem_pySortedSet.mpr (List.mem_append_right _ (by simp))
  have hCMDne : CMD ≠ [] := List.ne_nil_of_mem hconCMD
  have hdbAM : db ∈ AC.allModulesEnhanced reg lz := by
    unfold AC.allModulesEnhanced
    apply List.mem_append_right
    apply List.mem_flatMap.mpr
    exact ⟨(db, CMD), AC.mem_of_lookupD_some hlz, by simp⟩
  have hemc : AC.enhancedModuleCommands reg lz db = CMD := by
    unfold AC.enhancedModuleCommands
    rw [hres]
    simp only [Option.getD_none]
    rw [hmod]
    simp only [Option.isSome_none, Bool.false_eq_true, if_false, hlz, Option.getD_some]
  have hset : ∀ d : AC.Dict,
      AC.lookupD (AC.enhancedModuleStep reg lz d db) db = some (pySort CMD) := by
    intro d
    unfold AC.enhancedModuleStep
    rw [hemc, if_pos hCMDne]
    exact AC.lookupD_insertD_self _ _ _
  set CORE : List Str := pySort (reg.listModuleCommands "core".toList) with hCOREdef
  set AMS : List Str := pySortedSet (AC.allModulesEnhanced reg lz) with hAMSdef
  set D1 : AC.Dict :=
    AC.insertD (AC.insertD [] [] CORE) [] (CORE ++ AMS) with hD1def
  set D2 : AC.Dict := AMS.foldl (AC.enhancedModuleStep reg lz) D1 with hD2def
  have hbcd : AC.buildCompletionDictE reg lz =
      (reg.allAliases.foldlM AC.aliasMergeStep D2).map
        (fun d3 => AC.updateD d3 (AC.buildParameterCompletions reg)) := by
    rw [hD2def, hD1def, hAMSdef, hCOREdef]
    unfold AC.buildCompletionDictE
    simp only [AC.lookupD_insertD_self, Option.some_bind]
  obtain ⟨d3, hd3⟩ := Option.isSome_iff_exists.mp
    (foldlM_option_isSome aliasMergeStep_isSome reg.allAliases D2)
  rw [hd3] at hbcd
  have hfAM : ([] : Str) ∉ AMS := fun h => hfresh (mem_pySortedSet.mp h)
  have hdbAMS : db ∈ AMS := mem_pySortedSet.mpr hdbAM
  have hD2top : AC.lookupD D2 [] = some (CORE ++ AMS) := by
    rw [hD2def]
    rw [foldl_local_preserve (enhancedModuleStep_local reg lz) AMS [] hfAM D1]
    rw [hD1def]
    exact AC.lookupD_insertD_self _ _ _
  have hD2db : AC.lookupD D2 db = some (pySort CMD) := by
    rw [hD2def]
    exact foldl_local_get (enhancedModuleStep_local reg lz) db (pySort CMD) hset AMS
      (pySortedSet_nodup _) hdbAMS D1
  have hmono := foldlM_aliasMerge_mono reg.allAliases D2 d3 hd3
  have hd3top : db ∈ (AC.lookupD d3 []).getD [] := by
    apply hmono [] db
    rw [hD2top]
    exact List.mem_append_right _ hdbAMS
  have hd3con : "connect".toList ∈ (AC.lookupD d3 db).getD [] := by
    apply hmono db "connect".toList
    rw [hD2db]
    exact mem_pySortBy.mpr hconCMD
  have hd3qu : "query".toList ∈ (AC.lookupD d3 db).getD [] := by
    apply hmono db "query".toList
    rw [hD2db]
    exact mem_pySortBy.mpr hquCMD
  have hup0 : AC.lookupD (AC.updateD d3 (AC.buildParameterCompletions reg)) [] =
      AC.lookupD d3 [] :=
    AC.lookupD_updateD_none _ _ _
      (lookupD_buildParameterCompletions_none reg [] hcmds0 halias0)
  have hupdb : AC.lookupD (AC.updateD d3 (AC.buildParameterCompletions reg)) db =
      AC.lookupD d3 db :=
    AC.lookupD_updateD_none _ _ _
      (lookupD_buildParameterCompletions_none reg db hcmds halias)
  refine ⟨buildCompletionDictE_isSome reg lz, ?_, ?_, ?_⟩
  · show db ∈ AC.dictGet (AC.buildCompletionDictE reg lz) []
    unfold AC.dictGet
    rw [hbcd]
    show db ∈ (AC.lookupD (AC.updateD d3 (AC.buildParameterCompletions reg)) []).getD []
    rw [hup0]
    exact hd3top
  · show "connect".toList ∈ AC.dictGet (AC.buildCompletionDictE reg lz) db
    unfold AC.dictGet
    rw [hbcd]
    show "connect".toList ∈
      (AC.lookupD (AC.updateD d3 (AC.buildParameterCompletions reg)) db).getD []
    rw [hupdb]
    exact hd3con
  · show "query".toList ∈ AC.dictGet (AC.buildCompletionDictE reg lz) db
    unfold AC.dictGet
    rw [hbcd]
    show "query".toList ∈
      (AC.lookupD (AC.updateD d3 (AC.buildParameterCompletions reg)) db).getD []
    rw [hupdb]
    exact hd3qu

/-- Witness for C3 at the empty registry with no prior lazy declarations. -/
theorem registerLazy_then_rebuild_completes_witness :
    (AC.buildCompletionDictE regEmpty (AC.registerLazyCommands [] "database".toList
        ["connect".toList, "query".toList])).isSome = true
    ∧ "database".toList ∈ AC.dictGet
        (AC.buildCompletionDictE regEmpty (AC.registerLazyCommands [] "database".toList
          ["connect".toList, "query".toList])) []
    ∧ "connect".toList ∈ AC.dictGet
        (AC.buildCompletionDictE regEmpty (AC.registerLazyCommands [] "database".toList
          ["connect".toList, "query".toList])) "database".toList
    ∧ "query".toList ∈ AC.dictGet
        (AC.buildCompletionDictE regEmpty (AC.registerLazyCommands [] "database".toList
          ["connect".toList, "query".toList])) "database".toList :=
  registerLazy_then_rebuild_completes regEmpty []
    (by decide) (by decide) (by decide) (by decide) (by decide) (by decide) (by decide)
